import Mathlib

/-!
# Verification of the `ezq` reorder buffer and queue lifecycle

Shallow embedding of `src/ezq/__init__.py`.

* `Msg` and `PyData` model the `Msg` dataclass; a Python value that may or may
  not itself be a `Msg` (as in `Q.put`'s `isinstance(data, Msg)` test) is a
  `PyData`, with `PyData.msg` embedding a `Msg`.
* `sortiter` models the generator `sortiter(items, start, key)`; the lazily
  yielded stream is modelled as the list of yielded items.  The mutable state
  `(prev, waiting)` of the Python loop is threaded explicitly.
* `iterMsgRun` models `iter_msg` run on the sequence of messages a queue
  delivers (FIFO), returning the yielded messages and the messages left behind.
* `endq_and_wait` models the lifecycle controller; the externally visible
  effects (sentinel sends, worker joins) are recorded as an event trace.
-/

namespace Ezq

/-- A Python value as far as the claims need to distinguish it: `None`, an
`int`, a `str`, or a `Msg` instance (`PyData.msg kind data order`), which is
what `isinstance(data, Msg)` tests for in `Q.put`. -/
inductive PyData where
  | none : PyData
  | int : Int → PyData
  | str : String → PyData
  | msg : String → PyData → Int → PyData
  deriving DecidableEq, Repr

/-- The `Msg` dataclass: `kind: str = ""`, `data: Any = None`, `order: int = 0`. -/
structure Msg where
  kind : String
  data : PyData
  order : Int
  deriving DecidableEq, Repr

/-- Model of `END_MSG = Msg(kind="END")` (so `data = None`, `order = 0`). -/
def END_MSG : Msg := ⟨"END", PyData.none, 0⟩

section Sortiter

variable {α : Type} [DecidableEq α]

/-- Insert one element into a list sorted by descending key, after existing
elements of equal key.  Folding this over a list is a stable descending sort,
extensionally equal to Python's Timsort `list.sort(key=key, reverse=True)`
(stability with `reverse=True` is documented CPython behaviour). -/
def insertDesc (key : α → Int) (x : α) : List α → List α
  | [] => [x]
  | y :: ys => if key y ≤ key x then x :: y :: ys else y :: insertDesc key x ys

/-- Model of `waiting.sort(key=key, reverse=True)`: stable descending insertion sort. -/
def sortDesc (key : α → Int) : List α → List α
  | [] => []
  | x :: xs => insertDesc key x (sortDesc key xs)

/-- The inner loop `while waiting and key(waiting[-1]) == prev + 1: prev += 1;
yield waiting.pop()`, written on the *reversed* list so that `waiting[-1]` is
the head.  Returns `(prev, reversed rest of waiting, yielded items)`. -/
def popReadyRev (key : α → Int) : Int → List α → Int × List α × List α
  | prev, [] => (prev, [], [])
  | prev, x :: rest =>
    if key x = prev + 1 then
      let r := popReadyRev key (prev + 1) rest
      (r.1, r.2.1, x :: r.2.2)
    else (prev, x :: rest, [])

/-- Same loop on the list in its Python (descending) representation. -/
def popReady (key : α → Int) (prev : Int) (waiting : List α) :
    Int × List α × List α :=
  let r := popReadyRev key prev waiting.reverse
  (r.1, r.2.1.reverse, r.2.2)

/-- The body of `sortiter`'s `for item in items` loop: either the fast path
(`not waiting and key(item) == prev + 1`) yields the item directly, or the item
is appended to `waiting`, `waiting` is re-sorted descending, and ready items
are popped from the tail.  Returns `((prev, waiting), yielded items)`. -/
def sortiterStep (key : α → Int) (prev : Int) (waiting : List α) (item : α) :
    (Int × List α) × List α :=
  if waiting = [] ∧ key item = prev + 1 then
    ((prev + 1, waiting), [item])
  else
    let w := sortDesc key (waiting ++ [item])
    let r := popReady key prev w
    ((r.1, r.2.1), r.2.2)

/-- The `for item in items` loop of `sortiter`, threading `(prev, waiting)`
and accumulating the yielded items. -/
def sortiterLoop (key : α → Int) : Int × List α → List α → (Int × List α) × List α
  | s, [] => (s, [])
  | s, item :: items =>
    let r1 := sortiterStep key s.1 s.2 item
    let r2 := sortiterLoop key r1.1 items
    (r2.1, r1.2 ++ r2.2)

/-- Model of `sortiter(items, start, key)`: run the loop from `prev = start - 1`,
`waiting = []`, then drain (`while waiting: yield waiting.pop()`, i.e. the
reverse of the descending list). -/
def sortiter (items : List α) (start : Int) (key : α → Int) : List α :=
  let r := sortiterLoop key (start - 1, []) items
  r.2 ++ r.1.2.reverse

end Sortiter

/-- Model of `iter_msg(q)` applied to the FIFO sequence of messages the queue delivers:
yield messages by repeated `get` until one with `msg.kind == END_MSG.kind`
arrives; that message is consumed but not yielded.  Returns
`(yielded messages, messages still in the queue)`.  The `Empty` retry of the
Python loop is invisible at this level (it re-polls the same FIFO). -/
def iterMsgRun : List Msg → List Msg × List Msg
  | [] => ([], [])
  | m :: rest =>
    if m.kind = END_MSG.kind then ([], rest)
    else
      let r := iterMsgRun rest
      (m :: r.1, r.2)

/-- Model of `endq(q)` / `Q.end()`: `q.put(END_MSG)` appends the sentinel. -/
def endq (q : List Msg) : List Msg := q ++ [END_MSG]

/-- Model of `Q.put(data, kind, order)`: if `isinstance(data, Msg)` the message is
enqueued unchanged (the `kind` and `order` arguments are not consulted),
otherwise `Msg(data=data, kind=kind, order=order)` is enqueued.  The updated
queue is the state of the `self` that `put` returns. -/
def Qput (q : List Msg) (data : PyData) (kind : String) (order : Int) : List Msg :=
  match data with
  | PyData.msg k d o => q ++ [⟨k, d, o⟩]
  | _ => q ++ [⟨kind, data, order⟩]

/-- Model of `Q.sorted()` = `sortiter(self)`: iterate the queue (up to the sentinel)
and reorder by `Msg.order` from `start = 0`. -/
def Qsorted (q : List Msg) : List Msg :=
  sortiter (iterMsgRun q).1 0 Msg.order

/-- The argument `workers` of `endq_and_wait` / `Q.stop`: a single worker
(`Thread`/`Process`, normalized to a one-element list) or a sequence of
workers.  Workers are identified by opaque ids. -/
inductive SomeWorkers where
  | one : Nat → SomeWorkers
  | many : List Nat → SomeWorkers
  deriving DecidableEq, Repr

/-- The `isinstance` normalization at the top of `endq_and_wait`. -/
def normWorkers : SomeWorkers → List Nat
  | SomeWorkers.one w => [w]
  | SomeWorkers.many ws => ws

/-- Externally visible effects of the lifecycle controller: sending one
sentinel (`endq(q)`) and joining one worker (`worker.join()`). -/
inductive LifeEvent where
  | sendEnd : LifeEvent
  | joinWorker : Nat → LifeEvent
  deriving DecidableEq, Repr

/-- Loop `for _ in range(len(_workers)): endq(q)` — effect on the queue. -/
def sendEnds (q : List Msg) : Nat → List Msg
  | 0 => q
  | n + 1 => sendEnds (endq q) n

/-- Loop `for _ in range(len(_workers)): endq(q)` — emitted events. -/
def endLoop : Nat → List LifeEvent
  | 0 => []
  | n + 1 => LifeEvent.sendEnd :: endLoop n

/-- Loop `for worker in _workers: worker.join()` — emitted events. -/
def joinLoop : List Nat → List LifeEvent
  | [] => []
  | w :: ws => LifeEvent.joinWorker w :: joinLoop ws

/-- Model of `endq_and_wait(q, workers)`: normalize `workers`, send one sentinel per
worker, then join every worker; returns `_workers`.  Result: (queue after the
sends, event trace in program order, returned worker list). -/
def endq_and_wait (q : List Msg) (workers : SomeWorkers) :
    List Msg × List LifeEvent × List Nat :=
  let ws := normWorkers workers
  (sendEnds q ws.length, endLoop ws.length ++ joinLoop ws, ws)

/-- The messages `ezq.map`'s workers place on the output queue, in zip order:
for zip index `i` and argument tuple `t` the worker runs
`_out.put(data=func(*t), order=msg.order)`, i.e. `Q.put` (modelled by `Qput`)
with `kind = ""` and `order = i`.  In particular a `Msg`-valued result is
enqueued unchanged (the `isinstance(data, Msg)` branch, its own kind and
order, the `order` argument ignored); any other result is wrapped. -/
def mapResults (f : List PyData → PyData) (tuples : List (List PyData)) : List Msg :=
  tuples.enum.foldl (fun q p => Qput q (f p.2) "" (p.1 : Int)) []

/-- The same output-queue content in the plain case — every `f t` a non-`Msg`
value — where `Q.put` wraps each result as `Msg(kind="", data=f t, order=i)`. -/
def mapResultsPlain (f : List PyData → PyData) (tuples : List (List PyData)) : List Msg :=
  tuples.enum.map fun p => ⟨"", f p.2, (p.1 : Int)⟩

/-- The tail of `ezq.map`: `for msg in out.end().sorted(): yield msg.data`,
applied to the output-queue contents `arrival` (the results in whatever order
the workers completed). -/
def mapDrain (arrival : List Msg) : List PyData :=
  (Qsorted (endq arrival)).map Msg.data

/-! ### The inclusive integer range `[a..b]`, used to describe emitted keys -/

/-- The list of integers `a, a+1, ..., b` (empty when `b < a`). -/
def rangeI (a b : Int) : List Int :=
  (List.range (b + 1 - a).toNat).map fun (i : Nat) => a + (i : Int)

/-! ### Concrete inputs used to exercise the theorems -/

/-- Four messages whose keys are a shuffle of `0..3`. -/
def exShuffle : List Msg :=
  [⟨"", PyData.none, 2⟩, ⟨"", PyData.none, 0⟩, ⟨"", PyData.none, 3⟩, ⟨"", PyData.none, 1⟩]

/-- Messages with keys `995..999` arriving before keys `0..989`:
the gap-tolerance input in a worst-case arrival order. -/
def gapItems : List Msg :=
  (rangeI 995 999 ++ rangeI 0 989).map fun k => ⟨"", PyData.none, k⟩

/-- Three messages with already-consecutive keys `5, 6, 7`. -/
def exConsec : List Msg :=
  [⟨"", PyData.str "a", 5⟩, ⟨"", PyData.str "b", 6⟩, ⟨"", PyData.str "c", 7⟩]

/-- Two distinct messages with the duplicate key `0`. -/
def exDupZero : List Msg :=
  [⟨"", PyData.str "a", 0⟩, ⟨"", PyData.str "b", 0⟩]

/-- Duplicate key `1` held in `waiting` together (`a` arrives before `b`),
followed by the key `0` that releases them. -/
def exDupOne : List Msg :=
  [⟨"", PyData.str "a", 1⟩, ⟨"", PyData.str "b", 1⟩, ⟨"", PyData.str "c", 0⟩]

/-- A queue with one payload message before the sentinel and one after. -/
def exQueue : List Msg :=
  [⟨"", PyData.int 1, 0⟩, END_MSG, ⟨"", PyData.int 2, 0⟩]

/-- Python `add` over a tuple of ints, as passed to `ezq.map`. -/
def addPy (t : List PyData) : PyData :=
  PyData.int (t.foldr (fun d acc => match d with | PyData.int n => n + acc | _ => acc) 0)

/-- Tuples `zip([0..9], [10, 9, ..., 1])` as arguments for `ezq.map`. -/
def exZip : List (List PyData) :=
  (List.range 10).map fun i => [PyData.int i, PyData.int (10 - i)]

/-- A function whose every result is itself a `Msg` instance (kind `""`,
data `99`, order `0`): `Q.put` then enqueues it unchanged, ignoring the zip
index passed as the `order` argument. -/
def msgConstF (_t : List PyData) : PyData := PyData.msg "" (PyData.int 99) 0

/-- Two argument tuples (zip indices `0` and `1`) for `msgConstF`. -/
def msgTuples : List (List PyData) := [[PyData.int 0], [PyData.int 1]]

theorem rangeI_of_lt {a b : Int} (h : b < a) : rangeI a b = [] := by
  have h0 : (b + 1 - a).toNat = 0 := by omega
  simp [rangeI, h0]

theorem rangeI_cons {a b : Int} (h : a ≤ b) : rangeI a b = a :: rangeI (a + 1) b := by
  have h1 : (b + 1 - a).toNat = (b + 1 - (a + 1)).toNat + 1 := by omega
  rw [rangeI, rangeI, h1, List.range_succ_eq_map, List.map_cons, List.map_map]
  congr 1
  · simp
  · apply List.map_congr_left
    intro i _
    simp only [Function.comp_apply]
    push_cast
    ring

theorem mem_rangeI {k a b : Int} : k ∈ rangeI a b ↔ a ≤ k ∧ k ≤ b := by
  simp only [rangeI, List.mem_map, List.mem_range]
  constructor
  · rintro ⟨i, hi, rfl⟩
    constructor
    · omega
    · omega
  · rintro ⟨h1, h2⟩
    refine ⟨(k - a).toNat, ?_, ?_⟩
    · omega
    · omega

theorem rangeI_pairwise (a b : Int) : (rangeI a b).Pairwise (· < ·) := by
  rw [rangeI, List.pairwise_map]
  refine (List.pairwise_lt_range _).imp ?_
  intro i j h
  omega

theorem rangeI_append : ∀ (n : Nat) (a b c : Int), (b + 1 - a).toNat = n →
    a - 1 ≤ b → b ≤ c → rangeI a b ++ rangeI (b + 1) c = rangeI a c := by
  intro n
  induction n with
  | zero =>
    intro a b c hn h1 h2
    have hab : b = a - 1 := by omega
    rw [rangeI_of_lt (by omega)]
    subst hab
    simp
  | succ n ih =>
    intro a b c hn h1 h2
    have hab : a ≤ b := by omega
    rw [rangeI_cons hab, rangeI_cons (le_trans hab h2), List.cons_append]
    congr 1
    exact ih (a + 1) b c (by omega) (by omega) h2

theorem rangeI_nodup (a b : Int) : (rangeI a b).Nodup :=
  (rangeI_pairwise a b).imp ne_of_lt

/-! ### Permutation and sortedness facts about the stable descending sort -/

section SortLemmas

variable {α : Type} {key : α → Int}

theorem insertDesc_perm (key : α → Int) (x : α) :
    ∀ l : List α, List.Perm (insertDesc key x l) (x :: l) := by
  intro l
  induction l with
  | nil => simp [insertDesc]
  | cons y ys ih =>
    by_cases h : key y ≤ key x
    · simp [insertDesc, h]
    · simp only [insertDesc, if_neg h]
      exact (ih.cons y).trans (List.Perm.swap x y ys)

theorem sortDesc_perm (key : α → Int) :
    ∀ l : List α, List.Perm (sortDesc key l) l := by
  intro l
  induction l with
  | nil => simp [sortDesc]
  | cons x xs ih =>
    exact (insertDesc_perm key x (sortDesc key xs)).trans (ih.cons x)

theorem mem_insertDesc {x z : α} {l : List α} :
    z ∈ insertDesc key x l ↔ z = x ∨ z ∈ l := by
  rw [(insertDesc_perm key x l).mem_iff]
  simp

theorem insertDesc_pairwise {x : α} {l : List α}
    (h : l.Pairwise fun a b => key b ≤ key a) :
    (insertDesc key x l).Pairwise fun a b => key b ≤ key a := by
  induction l with
  | nil => simp [insertDesc]
  | cons y ys ih =>
    rcases List.pairwise_cons.mp h with ⟨hy, hys⟩
    by_cases hxy : key y ≤ key x
    · rw [insertDesc, if_pos hxy]
      refine List.pairwise_cons.mpr ⟨?_, h⟩
      intro z hz
      rcases List.mem_cons.mp hz with rfl | hz
      · exact hxy
      · exact le_trans (hy z hz) hxy
    · rw [insertDesc, if_neg hxy]
      refine List.pairwise_cons.mpr ⟨?_, ih hys⟩
      intro z hz
      rcases mem_insertDesc.mp hz with rfl | hz
      · exact le_of_not_le hxy
      · exact hy z hz

theorem sortDesc_pairwise (key : α → Int) (l : List α) :
    (sortDesc key l).Pairwise fun a b => key b ≤ key a := by
  induction l with
  | nil => simp [sortDesc]
  | cons x xs ih => exact insertDesc_pairwise ih

/-- A descending-sorted list whose keys are distinct is strictly descending. -/
theorem pairwise_strict_of_nodup {l : List α}
    (hs : l.Pairwise fun a b => key b ≤ key a) (hn : (l.map key).Nodup) :
    l.Pairwise fun a b => key b < key a := by
  have hne : l.Pairwise fun a b => key a ≠ key b := by
    rw [List.Nodup, List.pairwise_map] at hn
    exact hn
  exact (hs.and hne).imp fun h => lt_of_le_of_ne h.1 (Ne.symm h.2)

end SortLemmas

/-! ### The pop loop: what `while waiting and key(waiting[-1]) == prev + 1` yields -/

section PopLemmas

variable {α : Type}

/-- The pop loop yields a prefix of its (reversed) input and keeps the rest. -/
theorem popReadyRev_split (key : α → Int) :
    ∀ (l : List α) (prev : Int),
      (popReadyRev key prev l).2.2 ++ (popReadyRev key prev l).2.1 = l := by
  intro l
  induction l with
  | nil =>
    intro prev
    simp [popReadyRev]
  | cons x rest ih =>
    intro prev
    by_cases h : key x = prev + 1
    · simp only [popReadyRev, if_pos h, List.cons_append]
      rw [ih]
    · simp [popReadyRev, if_neg h]

/-- On a strictly ascending list whose keys all exceed `prev`, the pop loop
yields exactly the keys `prev+1, ..., p` (its final `prev`), and every kept
item has key above `p` and different from `p + 1` (the loop really stopped). -/
theorem popReadyRev_spec (key : α → Int) :
    ∀ (l : List α) (prev : Int),
      l.Pairwise (fun a b => key a < key b) →
      (∀ x ∈ l, prev < key x) →
      (popReadyRev key prev l).2.2.map key =
          rangeI (prev + 1) (popReadyRev key prev l).1 ∧
        prev ≤ (popReadyRev key prev l).1 ∧
        (∀ x ∈ (popReadyRev key prev l).2.1, (popReadyRev key prev l).1 < key x) ∧
        (∀ x ∈ (popReadyRev key prev l).2.1, key x ≠ (popReadyRev key prev l).1 + 1) := by
  intro l
  induction l with
  | nil =>
    intro prev _ _
    refine ⟨?_, le_refl _, ?_, ?_⟩
    · simp [popReadyRev, rangeI_of_lt]
    · simp [popReadyRev]
    · simp [popReadyRev]
  | cons x rest ih =>
    intro prev hpw hgt
    rcases List.pairwise_cons.mp hpw with ⟨hx, hrest⟩
    by_cases h : key x = prev + 1
    · have hgt' : ∀ y ∈ rest, prev + 1 < key y := by
        intro y hy
        calc prev + 1 = key x := h.symm
        _ < key y := hx y hy
      rcases ih (prev + 1) hrest hgt' with ⟨h1, h2, h3, h4⟩
      simp only [popReadyRev, if_pos h]
      refine ⟨?_, by omega, h3, h4⟩
      rw [List.map_cons, h1, h, rangeI_cons h2]
    · simp only [popReadyRev, if_neg h]
      refine ⟨by simp [rangeI_of_lt], le_refl _, hgt, ?_⟩
      intro y hy
      rcases List.mem_cons.mp hy with rfl | hy
      · exact h
      · have h1 : prev < key x := hgt x (List.mem_cons_self x rest)
        have h2 : key x < key y := hx y hy
        have h3 : key x ≠ prev + 1 := h
        omega

end PopLemmas

/-! ### The main loop only permutes: every item comes out exactly once (C2) -/

section PermLemmas

open List

variable {α : Type} [DecidableEq α]

theorem sortiterStep_perm (key : α → Int) (prev : Int) (waiting : List α) (item : α) :
    ((sortiterStep key prev waiting item).2 ++ (sortiterStep key prev waiting item).1.2) ~
      (waiting ++ [item]) := by
  by_cases h : waiting = [] ∧ key item = prev + 1
  · simp [sortiterStep, h.1, h.2]
  · simp only [sortiterStep, if_neg h, popReady]
    set w := sortDesc key (waiting ++ [item]) with hw
    have hsplit := popReadyRev_split key w.reverse prev
    calc
      ((popReadyRev key prev w.reverse).2.2 ++ (popReadyRev key prev w.reverse).2.1.reverse) ~
          ((popReadyRev key prev w.reverse).2.2 ++ (popReadyRev key prev w.reverse).2.1) :=
        List.Perm.append_left _ (List.reverse_perm _)
      _ = w.reverse := hsplit
      _ ~ w := List.reverse_perm w
      _ ~ (waiting ++ [item]) := sortDesc_perm key _

theorem sortiterLoop_perm (key : α → Int) :
    ∀ (items : List α) (s : Int × List α),
      ((sortiterLoop key s items).2 ++ (sortiterLoop key s items).1.2) ~ (s.2 ++ items) := by
  intro items
  induction items with
  | nil =>
    intro s
    simp [sortiterLoop]
  | cons item rest ih =>
    intro s
    simp only [sortiterLoop, List.append_assoc]
    calc
      ((sortiterStep key s.1 s.2 item).2 ++
          ((sortiterLoop key (sortiterStep key s.1 s.2 item).1 rest).2 ++
            (sortiterLoop key (sortiterStep key s.1 s.2 item).1 rest).1.2)) ~
          ((sortiterStep key s.1 s.2 item).2 ++ ((sortiterStep key s.1 s.2 item).1.2 ++ rest)) :=
        List.Perm.append_left _ (ih _)
      _ = ((sortiterStep key s.1 s.2 item).2 ++ (sortiterStep key s.1 s.2 item).1.2) ++ rest := by
        rw [List.append_assoc]
      _ ~ ((s.2 ++ [item]) ++ rest) := (sortiterStep_perm key s.1 s.2 item).append_right rest
      _ = s.2 ++ (item :: rest) := by simp

/-- Function `sortiter` yields a permutation of its input, whatever the keys are. -/
theorem sortiter_perm (items : List α) (start : Int) (key : α → Int) :
    (sortiter items start key) ~ items := by
  unfold sortiter
  calc
    ((sortiterLoop key (start - 1, []) items).2 ++
        (sortiterLoop key (start - 1, []) items).1.2.reverse) ~
        ((sortiterLoop key (start - 1, []) items).2 ++
          (sortiterLoop key (start - 1, []) items).1.2) :=
      List.Perm.append_left _ (List.reverse_perm _)
    _ ~ (([] : List α) ++ items) := sortiterLoop_perm key items (start - 1, [])
    _ = items := by simp

end PermLemmas

/-! ### The main-loop invariant for distinct keys

When the keys of the not-yet-seen input are pairwise distinct and above
`prev`, the loop emits exactly the keys `prev+1, ..., p'` (in that order,
where `p'` is the final `prev`), and `waiting` ends strictly descending with
all keys above `p'` (and not `p'+1`: nothing emittable is withheld). -/

section LoopSpec

open List

variable {α : Type} [DecidableEq α]

theorem sortiterLoop_spec (key : α → Int) :
    ∀ (items : List α) (prev : Int) (waiting : List α) (p' : Int) (w' out : List α),
      sortiterLoop key (prev, waiting) items = ((p', w'), out) →
      waiting.Pairwise (fun a b => key b < key a) →
      (∀ x ∈ waiting, prev < key x) →
      (∀ x ∈ waiting, key x ≠ prev + 1) →
      (∀ x ∈ items, prev < key x) →
      ((waiting ++ items).map key).Nodup →
      out.map key = rangeI (prev + 1) p' ∧ prev ≤ p' ∧
        w'.Pairwise (fun a b => key b < key a) ∧
        (∀ x ∈ w', p' < key x) ∧ (∀ x ∈ w', key x ≠ p' + 1) := by
  intro items
  induction items with
  | nil =>
    intro prev waiting p' w' out heq hpw hgt hne _ _
    simp only [sortiterLoop, Prod.mk.injEq] at heq
    obtain ⟨⟨h1, h2⟩, h3⟩ := heq
    subst h1
    subst h2
    subst h3
    exact ⟨by simp [rangeI_of_lt], le_refl _, hpw, hgt, hne⟩
  | cons item rest ih =>
    intro prev waiting p' w' out heq hpw hgt hne hitems hnodup
    have hitem : prev < key item := hitems item (List.mem_cons_self item rest)
    -- key fact: the item's key is fresh among all keys seen or still to come
    have hnodup' : (((waiting ++ [item]) ++ rest).map key).Nodup := by
      rw [List.append_assoc, List.singleton_append]
      exact hnodup
    by_cases h : waiting = [] ∧ key item = prev + 1
    · -- fast path
      obtain ⟨hemp, hkey⟩ := h
      subst hemp
      have hstep : sortiterStep key prev [] item = ((prev + 1, []), [item]) := by
        simp [sortiterStep, hkey]
      rcases hloop : sortiterLoop key (prev + 1, []) rest with ⟨⟨p2, w2⟩, out2⟩
      simp only [sortiterLoop, hstep, hloop, Prod.mk.injEq] at heq
      obtain ⟨⟨h1, h2⟩, h3⟩ := heq
      subst h1
      subst h2
      subst h3
      have hfresh : (key item) ∉ rest.map key := by
        have := hnodup
        simp only [List.nil_append, List.map_cons, List.nodup_cons] at this
        exact this.1
      have hrest : ∀ x ∈ rest, prev + 1 < key x := by
        intro x hx
        have h1 : prev < key x := hitems x (List.mem_cons_of_mem item hx)
        have h2 : key x ≠ key item := by
          intro hcontra
          exact hfresh (hcontra ▸ List.mem_map_of_mem key hx)
        rw [hkey] at h2
        omega
      have hnodup2 : ((([] : List α) ++ rest).map key).Nodup := by
        simp only [List.nil_append, List.map_cons, List.nodup_cons] at hnodup ⊢
        exact hnodup.2
      rcases ih (prev + 1) [] p2 w2 out2 hloop (List.Pairwise.nil)
          (by simp) (by simp) hrest hnodup2 with ⟨h1, h2, h3, h4, h5⟩
      refine ⟨?_, by omega, h3, h4, h5⟩
      rw [List.singleton_append, List.map_cons, h1, hkey, rangeI_cons h2]
    · -- buffering path
      rcases hpop : popReadyRev key prev (sortDesc key (waiting ++ [item])).reverse
        with ⟨p1, kept, out1⟩
      have hwperm : List.Perm (sortDesc key (waiting ++ [item])) (waiting ++ [item]) :=
        sortDesc_perm key _
      have hnodupwi : ((waiting ++ [item]).map key).Nodup :=
        List.Nodup.sublist (List.Sublist.map key (List.sublist_append_left _ _)) hnodup'
      have hwnodup : ((sortDesc key (waiting ++ [item])).map key).Nodup :=
        ((hwperm.map key).nodup_iff).mpr hnodupwi
      have hwsorted : (sortDesc key (waiting ++ [item])).Pairwise (fun a b => key b < key a) :=
        pairwise_strict_of_nodup (sortDesc_pairwise key _) hwnodup
      have hwgt : ∀ x ∈ sortDesc key (waiting ++ [item]), prev < key x := by
        intro x hx
        rcases List.mem_append.mp (hwperm.mem_iff.mp hx) with hx' | hx'
        · exact hgt x hx'
        · rw [List.mem_singleton.mp hx']
          exact hitem
      have hrevasc :
          (sortDesc key (waiting ++ [item])).reverse.Pairwise (fun a b => key a < key b) :=
        List.pairwise_reverse.mpr hwsorted
      have hrevgt : ∀ x ∈ (sortDesc key (waiting ++ [item])).reverse, prev < key x := by
        intro x hx
        exact hwgt x (List.mem_reverse.mp hx)
      have hps := popReadyRev_spec key (sortDesc key (waiting ++ [item])).reverse prev
        hrevasc hrevgt
      rw [hpop] at hps
      dsimp only at hps
      obtain ⟨hout1, hprevp1, hkeptgt, hkeptne⟩ := hps
      have hsp := popReadyRev_split key (sortDesc key (waiting ++ [item])).reverse prev
      rw [hpop] at hsp
      dsimp only at hsp
      have hstep : sortiterStep key prev waiting item = ((p1, kept.reverse), out1) := by
        simp only [sortiterStep, if_neg h, popReady]
        rw [hpop]
      rcases hloop : sortiterLoop key (p1, kept.reverse) rest with ⟨⟨p2, w2⟩, out2⟩
      simp only [sortiterLoop, hstep, hloop, Prod.mk.injEq] at heq
      obtain ⟨⟨h1, h2⟩, h3⟩ := heq
      subst h1
      subst h2
      subst h3
      have hkeptasc : kept.Pairwise (fun a b => key a < key b) := by
        have hx := hrevasc
        rw [← hsp] at hx
        exact (List.pairwise_append.mp hx).2.1
      have hw1sorted : kept.reverse.Pairwise (fun a b => key b < key a) :=
        List.pairwise_reverse.mpr hkeptasc
      have hw1gt : ∀ x ∈ kept.reverse, p1 < key x := by
        intro x hx
        exact hkeptgt x (List.mem_reverse.mp hx)
      have hw1ne : ∀ x ∈ kept.reverse, key x ≠ p1 + 1 := by
        intro x hx
        exact hkeptne x (List.mem_reverse.mp hx)
      have hout1mem : ∀ y ∈ out1, y ∈ waiting ++ [item] := by
        intro y hy
        have h1 : y ∈ (sortDesc key (waiting ++ [item])).reverse := by
          rw [← hsp]
          exact List.mem_append_left _ hy
        exact hwperm.mem_iff.mp (List.mem_reverse.mp h1)
      have hmapdisj : List.Disjoint ((waiting ++ [item]).map key) (rest.map key) := by
        have hx := hnodup'
        rw [List.map_append] at hx
        exact (List.nodup_append.mp hx).2.2
      have hrestgt : ∀ x ∈ rest, p1 < key x := by
        intro x hx
        by_contra hle
        push_neg at hle
        have h1 : prev < key x := hitems x (List.mem_cons_of_mem item hx)
        have h2 : key x ∈ rangeI (prev + 1) p1 := mem_rangeI.mpr ⟨by omega, hle⟩
        rw [← hout1] at h2
        rcases List.mem_map.mp h2 with ⟨y, hy, hyx⟩
        exact hmapdisj (hyx ▸ List.mem_map_of_mem key (hout1mem y hy))
          (List.mem_map_of_mem key hx)
      have hw1sub : kept.reverse <+ sortDesc key (waiting ++ [item]) := by
        have h1 : kept <+ (sortDesc key (waiting ++ [item])).reverse := by
          rw [← hsp]
          exact List.sublist_append_right _ _
        have h2 := h1.reverse
        rwa [List.reverse_reverse] at h2
      have hnodup2 : ((kept.reverse ++ rest).map key).Nodup := by
        have hsub : kept.reverse ++ rest <+ sortDesc key (waiting ++ [item]) ++ rest :=
          hw1sub.append_right rest
        have hperm2 : List.Perm ((sortDesc key (waiting ++ [item]) ++ rest).map key)
            (((waiting ++ [item]) ++ rest).map key) := (hwperm.append_right rest).map key
        have hnd : ((sortDesc key (waiting ++ [item]) ++ rest).map key).Nodup :=
          hperm2.nodup_iff.mpr hnodup'
        exact List.Nodup.sublist (hsub.map key) hnd
      rcases ih p1 kept.reverse p2 w2 out2 hloop hw1sorted hw1gt hw1ne hrestgt hnodup2
        with ⟨h1, h2, h3, h4, h5⟩
      refine ⟨?_, by omega, h3, h4, h5⟩
      rw [List.map_append, hout1, h1]
      exact rangeI_append ((p1 + 1 - (prev + 1)).toNat) (prev + 1) p1 p2 rfl (by omega) h2

end LoopSpec

/-! ### Sorted-output characterization and uniqueness of sorted permutations -/

section SortedChar

open List

variable {α : Type}

/-- With pairwise-distinct keys at or above `start`, `sortiter` emits keys in
strictly increasing order. -/
theorem sortiter_pairwise_lt [DecidableEq α] (key : α → Int) (items : List α) (start : Int)
    (hnodup : (items.map key).Nodup) (hge : ∀ x ∈ items, start ≤ key x) :
    (sortiter items start key).Pairwise (fun a b => key a < key b) := by
  rcases hloop : sortiterLoop key (start - 1, []) items with ⟨⟨p', w'⟩, out⟩
  have hspec := sortiterLoop_spec key items (start - 1) [] p' w' out hloop
    List.Pairwise.nil (by simp) (by simp)
    (fun x hx => by have := hge x hx; omega) (by simpa using hnodup)
  obtain ⟨hout, _, hwsorted, hwgt, _⟩ := hspec
  unfold sortiter
  rw [hloop]
  dsimp only
  rw [List.pairwise_append]
  refine ⟨?_, List.pairwise_reverse.mpr hwsorted, ?_⟩
  · have hpw := rangeI_pairwise (start - 1 + 1) p'
    rw [← hout] at hpw
    exact (List.pairwise_map).mp hpw
  · intro a ha b hb
    have hka : key a ∈ rangeI (start - 1 + 1) p' := by
      rw [← hout]
      exact List.mem_map_of_mem key ha
    have h1 : key a ≤ p' := (mem_rangeI.mp hka).2
    have h2 : p' < key b := hwgt b (List.mem_reverse.mp hb)
    omega

/-- Two lists that are permutations of each other and both strictly sorted by
`key` are equal. -/
theorem eq_of_perm_of_pairwise_lt {key : α → Int} {l1 l2 : List α}
    (hp : List.Perm l1 l2) (h1 : l1.Pairwise fun a b => key a < key b)
    (h2 : l2.Pairwise fun a b => key a < key b) : l1 = l2 := by
  haveI : IsAntisymm α fun a b => key a < key b :=
    ⟨fun a b hab hba => absurd (lt_trans hab hba) (lt_irrefl _)⟩
  exact List.eq_of_perm_of_sorted hp h1 h2

/-- Two strictly increasing integer lists that are permutations of each other
are equal. -/
theorem int_eq_of_perm_of_pairwise_lt {l1 l2 : List Int} (hp : List.Perm l1 l2)
    (h1 : l1.Pairwise (· < ·)) (h2 : l2.Pairwise (· < ·)) : l1 = l2 := by
  haveI : IsAntisymm Int (· < ·) :=
    ⟨fun a b hab hba => absurd (lt_trans hab hba) (lt_irrefl _)⟩
  exact List.eq_of_perm_of_sorted hp h1 h2

end SortedChar

/-! ### Already-consecutive input: the fast path never buffers -/

section ConsecLemmas

variable {α : Type}

/-- On an input whose keys are exactly `start, start+1, ...` in order, the
loop stays on the fast path: `waiting` remains empty and the items are
yielded unchanged. -/
theorem sortiterLoop_consec [DecidableEq α] (key : α → Int) :
    ∀ (items : List α) (start : Int),
      (∀ (i : Nat) (h : i < items.length), key items[i] = start + (i : Int)) →
      sortiterLoop key (start - 1, []) items = ((start - 1 + items.length, []), items) := by
  intro items
  induction items with
  | nil =>
    intro start _
    simp [sortiterLoop]
  | cons item rest ih =>
    intro start hc
    have h0 : key item = start := by
      have h1 := hc 0 (by simp)
      simpa using h1
    have hstep : sortiterStep key (start - 1) [] item = ((start, []), [item]) := by
      have h2 : key item = start - 1 + 1 := by omega
      simp [sortiterStep, h2]
    have hrest : ∀ (i : Nat) (h : i < rest.length), key rest[i] = (start + 1) + (i : Int) := by
      intro i hi
      have h3 := hc (i + 1) (by simpa using Nat.succ_lt_succ hi)
      rw [List.getElem_cons_succ] at h3
      rw [h3]
      push_cast
      ring
    have hih := ih (start + 1) hrest
    have hs : start + 1 - 1 = start := by ring
    rw [hs] at hih
    rw [sortiterLoop]
    dsimp only
    rw [hstep]
    dsimp only
    rw [hih]
    dsimp only
    rw [List.singleton_append]
    congr 2
    simp only [List.length_cons]
    push_cast
    ring

end ConsecLemmas

/-! ### Lifecycle controller equations -/

theorem sendEnds_eq : ∀ (n : Nat) (q : List Msg),
    sendEnds q n = q ++ List.replicate n END_MSG := by
  intro n
  induction n with
  | zero =>
    intro q
    simp [sendEnds]
  | succ n ih =>
    intro q
    rw [sendEnds, ih, endq, List.replicate_succ, List.append_assoc, List.singleton_append]

theorem endLoop_eq : ∀ n : Nat, endLoop n = List.replicate n LifeEvent.sendEnd := by
  intro n
  induction n with
  | zero => simp [endLoop]
  | succ n ih => rw [endLoop, ih, List.replicate_succ]

theorem joinLoop_eq : ∀ ws : List Nat, joinLoop ws = ws.map LifeEvent.joinWorker := by
  intro ws
  induction ws with
  | nil => simp [joinLoop]
  | cons w ws ih => rw [joinLoop, ih, List.map_cons]

/-! ### Queue iteration helpers -/

/-- Iterating a queue whose payload carries no `"END"` tag and which ends with
the sentinel yields exactly the payload and consumes the sentinel. -/
theorem iterMsgRun_append_end (l : List Msg) (hnoend : ∀ m ∈ l, m.kind ≠ END_MSG.kind) :
    iterMsgRun (l ++ [END_MSG]) = (l, []) := by
  induction l with
  | nil => simp [iterMsgRun]
  | cons m rest ih =>
    have h : m.kind ≠ END_MSG.kind := hnoend m (List.mem_cons_self m rest)
    rw [List.cons_append, iterMsgRun, if_neg h,
      ih fun m' hm' => hnoend m' (List.mem_cons_of_mem _ hm')]

/-! ### `ezq.map` result-message facts -/

/-- Folding the worker's `Q.put` calls over results none of which is a `Msg`
instance wraps each one: the queue is the accumulator followed by the wrapped
messages. -/
theorem foldl_Qput_eq_map (f : List PyData → PyData) :
    ∀ (l : List (Nat × List PyData)) (acc : List Msg),
      (∀ p ∈ l, ∀ k d o, f p.2 ≠ PyData.msg k d o) →
      l.foldl (fun q p => Qput q (f p.2) "" (p.1 : Int)) acc =
        acc ++ l.map fun p => (⟨"", f p.2, (p.1 : Int)⟩ : Msg) := by
  intro l
  induction l with
  | nil =>
    intro acc _
    simp
  | cons p tail ih =>
    intro acc hp
    rw [List.foldl_cons]
    have hnm := hp p (List.mem_cons_self p tail)
    have h1 : Qput acc (f p.2) "" (p.1 : Int) = acc ++ [⟨"", f p.2, (p.1 : Int)⟩] := by
      cases hfp : f p.2 with
      | msg k d o => exact absurd hfp (hnm k d o)
      | none => rfl
      | int n => rfl
      | str s => rfl
    rw [h1, ih _ fun p' hp' => hp p' (List.mem_cons_of_mem _ hp'), List.map_cons,
      List.append_assoc, List.singleton_append]

/-- When no result of `f` on the given tuples is a `Msg` instance, the output
queue produced by the workers is exactly the plain wrapped form. -/
theorem mapResults_eq_plain (f : List PyData → PyData) (tuples : List (List PyData))
    (hf : ∀ t ∈ tuples, ∀ k d o, f t ≠ PyData.msg k d o) :
    mapResults f tuples = mapResultsPlain f tuples := by
  have h1 : ∀ p ∈ tuples.enum, ∀ k d o, f p.2 ≠ PyData.msg k d o := by
    intro p hp
    refine hf p.2 ?_
    have h2 : p.2 ∈ tuples.enum.map Prod.snd := List.mem_map_of_mem Prod.snd hp
    rwa [List.enum_map_snd] at h2
  rw [mapResults, mapResultsPlain, foldl_Qput_eq_map f tuples.enum [] h1, List.nil_append]

theorem mapResultsPlain_map_order (f : List PyData → PyData) (tuples : List (List PyData)) :
    (mapResultsPlain f tuples).map Msg.order =
      (List.range tuples.length).map fun (n : Nat) => (n : Int) := by
  rw [mapResultsPlain, List.map_map]
  have h1 : (tuples.enum.map fun p => ((p.1 : Nat) : Int)) =
      (tuples.enum.map Prod.fst).map fun n : Nat => (n : Int) := by
    rw [List.map_map]
    rfl
  calc tuples.enum.map (Msg.order ∘ fun p => (⟨"", f p.2, (p.1 : Int)⟩ : Msg))
      = tuples.enum.map fun p => ((p.1 : Nat) : Int) := rfl
    _ = (tuples.enum.map Prod.fst).map fun n : Nat => (n : Int) := h1
    _ = (List.range tuples.length).map fun (n : Nat) => (n : Int) := by rw [List.enum_map_fst]

theorem mapResultsPlain_map_data (f : List PyData → PyData) (tuples : List (List PyData)) :
    (mapResultsPlain f tuples).map Msg.data = tuples.map f := by
  rw [mapResultsPlain, List.map_map]
  calc tuples.enum.map (Msg.data ∘ fun p => (⟨"", f p.2, (p.1 : Int)⟩ : Msg))
      = tuples.enum.map fun p => f p.2 := rfl
    _ = (tuples.enum.map Prod.snd).map f := by rw [List.map_map]; rfl
    _ = tuples.map f := by rw [List.enum_map_snd]

theorem mapResultsPlain_kind (f : List PyData → PyData) (tuples : List (List PyData)) :
    ∀ m ∈ mapResultsPlain f tuples, m.kind = "" := by
  intro m hm
  rcases List.mem_map.mp hm with ⟨p, _, rfl⟩
  rfl

theorem mapResultsPlain_pairwise (f : List PyData → PyData) (tuples : List (List PyData)) :
    (mapResultsPlain f tuples).Pairwise fun a b => a.order < b.order := by
  have h1 : ((mapResultsPlain f tuples).map Msg.order).Pairwise (· < ·) := by
    rw [mapResultsPlain_map_order, List.pairwise_map]
    refine (List.pairwise_lt_range _).imp ?_
    intro i j h
    omega
  exact List.pairwise_map.mp h1

/-! ## Claim theorems -/

section Claims

/-- Claim C1 (order preservation): for every `N` and every list of items whose
keys are exactly a permutation of `0..N-1`, `sortiter` with `start = 0` yields
the items in key order: the output key sequence equals `0, 1, ..., N-1`. -/
theorem c1_order_preservation {α : Type} [DecidableEq α] (N : Nat) (items : List α)
    (key : α → Int)
    (hperm : List.Perm (items.map key) ((List.range N).map fun (n : Nat) => (n : Int))) :
    (sortiter items 0 key).map key = (List.range N).map fun (n : Nat) => (n : Int) := by
  have hrangend : ((List.range N).map fun (n : Nat) => (n : Int)).Nodup :=
    (List.nodup_range N).map Nat.cast_injective
  have hnodup : (items.map key).Nodup := hperm.nodup_iff.mpr hrangend
  have hge : ∀ x ∈ items, (0 : Int) ≤ key x := by
    intro x hx
    have h1 : key x ∈ (List.range N).map fun (n : Nat) => (n : Int) :=
      hperm.mem_iff.mp (List.mem_map_of_mem key hx)
    rcases List.mem_map.mp h1 with ⟨n, _, hn⟩
    omega
  have hsorted := sortiter_pairwise_lt key items 0 hnodup hge
  have houtperm : List.Perm ((sortiter items 0 key).map key)
      ((List.range N).map fun (n : Nat) => (n : Int)) :=
    ((sortiter_perm items 0 key).map key).trans hperm
  refine int_eq_of_perm_of_pairwise_lt houtperm ?_ ?_
  · exact List.pairwise_map.mpr hsorted
  · rw [List.pairwise_map]
    refine (List.pairwise_lt_range N).imp ?_
    intro i j h
    omega

/-- Witness for C1: the concrete shuffle `exShuffle` (keys `2, 0, 3, 1`)
comes out with keys `0, 1, 2, 3`. -/
theorem c1_witness :
    List.Perm (exShuffle.map Msg.order) ((List.range 4).map fun (n : Nat) => (n : Int)) ∧
    (sortiter exShuffle 0 Msg.order).map Msg.order =
      (List.range 4).map fun (n : Nat) => (n : Int) :=
  ⟨by decide, c1_order_preservation 4 exShuffle Msg.order (by decide)⟩

/-- Claim C2: for every finite input sequence and arbitrary integer keys,
`sortiter` yields a permutation of its input — exactly the input items, each
exactly once (multiset equality). -/
theorem c2_multiset_preservation {α : Type} [DecidableEq α]
    (items : List α) (start : Int) (key : α → Int) :
    List.Perm (sortiter items start key) items :=
  sortiter_perm items start key

/-- Counterexample to C3 as stated (for *every* function `f`): with
`msgConstF`, whose results are `Msg` instances, each worker's `Q.put` takes
the `isinstance(data, Msg)` branch and enqueues the returned `Msg` unchanged —
its own order `0` (the zip index passed as `order` is ignored) — and the drain
then yields that message's `.data` field `99`, not the value `f(*t)` itself:
the output is not `[f(*t) for t in tuples]`.  Here the completion order is the
zip order, so the failure is not a completion-order artefact. -/
theorem c3_counterexample :
    mapResults msgConstF msgTuples =
      [⟨"", PyData.int 99, 0⟩, ⟨"", PyData.int 99, 0⟩] ∧
    mapDrain (mapResults msgConstF msgTuples) = [PyData.int 99, PyData.int 99] ∧
    msgTuples.map msgConstF =
      [PyData.msg "" (PyData.int 99) 0, PyData.msg "" (PyData.int 99) 0] ∧
    mapDrain (mapResults msgConstF msgTuples) ≠ msgTuples.map msgConstF := by
  decide

/-- Claim C3 as amended: for every function `f` none of whose results (on the
given tuples) is a `Msg` instance, `ezq.map` yields exactly
`[f(*t) for t in tuples]` in zip-index order, regardless of worker completion
order: for any arrival permutation of the result messages, draining
`out.end().sorted()` returns the results in tuple order. -/
theorem c3_map_in_order (f : List PyData → PyData) (tuples : List (List PyData))
    (arrival : List Msg)
    (hf : ∀ t ∈ tuples, ∀ k d o, f t ≠ PyData.msg k d o)
    (hperm : List.Perm arrival (mapResults f tuples)) :
    mapDrain arrival = tuples.map f := by
  rw [mapResults_eq_plain f tuples hf] at hperm
  have hnoend : ∀ m ∈ arrival, m.kind ≠ END_MSG.kind := by
    intro m hm
    have h1 : m.kind = "" := mapResultsPlain_kind f tuples m (hperm.mem_iff.mp hm)
    rw [h1]
    decide
  rw [mapDrain, Qsorted, endq, iterMsgRun_append_end arrival hnoend]
  dsimp only
  have hnodup : (arrival.map Msg.order).Nodup := by
    refine (hperm.map Msg.order).nodup_iff.mpr ?_
    rw [mapResultsPlain_map_order]
    exact (List.nodup_range _).map Nat.cast_injective
  have hge : ∀ m ∈ arrival, (0 : Int) ≤ Msg.order m := by
    intro m hm
    have h1 : m ∈ mapResultsPlain f tuples := hperm.mem_iff.mp hm
    rcases List.mem_map.mp h1 with ⟨p, _, rfl⟩
    dsimp only
    omega
  have hs := sortiter_pairwise_lt Msg.order arrival 0 hnodup hge
  have heq : sortiter arrival 0 Msg.order = mapResultsPlain f tuples :=
    eq_of_perm_of_pairwise_lt ((sortiter_perm arrival 0 Msg.order).trans hperm) hs
      (mapResultsPlain_pairwise f tuples)
  rw [heq, mapResultsPlain_map_data]

/-- Witness for C3 (amended): `map(add, [0..9], [10, 9, ..., 1])` — whose
results are plain ints, never `Msg` instances — with the result messages
arriving in reverse completion order still yields ten values, each `10`, in
input-index order. -/
theorem c3_witness :
    (∀ t ∈ exZip, ∀ k d o, addPy t ≠ PyData.msg k d o) ∧
    List.Perm ((mapResults addPy exZip).reverse) (mapResults addPy exZip) ∧
    mapDrain ((mapResults addPy exZip).reverse) = exZip.map addPy ∧
    exZip.map addPy = List.replicate 10 (PyData.int 10) := by
  have hf : ∀ t ∈ exZip, ∀ k d o, addPy t ≠ PyData.msg k d o := by
    intro t ht k d o h
    simp [addPy] at h
  exact ⟨hf, List.reverse_perm _,
    c3_map_in_order addPy exZip _ hf (List.reverse_perm _), by decide⟩

/-- Claim C4: iterating a queue (`iter(Q)` / `iter_msg`) yields, in FIFO
order, exactly the messages preceding the first message whose kind is
`"END"`; iteration stops by consuming that sentinel (the rest of the queue
begins right after it) and never yields it. -/
theorem c4_iterate_until_end (q : List Msg)
    (hend : ∃ m ∈ q, m.kind = END_MSG.kind) :
    (iterMsgRun q).1 = q.takeWhile (fun m => !(m.kind == END_MSG.kind)) ∧
    (iterMsgRun q).2 =
      q.drop ((q.takeWhile fun m => !(m.kind == END_MSG.kind)).length + 1) := by
  induction q with
  | nil =>
    rcases hend with ⟨m, hm, _⟩
    cases hm
  | cons m rest ih =>
    by_cases h : m.kind = END_MSG.kind
    · constructor
      · simp [iterMsgRun, h, List.takeWhile_cons]
      · simp [iterMsgRun, h, List.takeWhile_cons]
    · have hend' : ∃ m' ∈ rest, m'.kind = END_MSG.kind := by
        rcases hend with ⟨m', hm', hk⟩
        rcases List.mem_cons.mp hm' with rfl | hm2
        · exact absurd hk h
        · exact ⟨m', hm2, hk⟩
      rcases ih hend' with ⟨ih1, ih2⟩
      constructor
      · simp [iterMsgRun, h, List.takeWhile_cons, ih1]
      · simp [iterMsgRun, h, List.takeWhile_cons, ih2]

/-- Witness for C4: on a queue `payload, END, payload`, iteration yields
exactly the first payload and leaves exactly the trailing one. -/
theorem c4_witness :
    (∃ m ∈ exQueue, m.kind = END_MSG.kind) ∧
    (iterMsgRun exQueue).1 = exQueue.takeWhile (fun m => !(m.kind == END_MSG.kind)) ∧
    (iterMsgRun exQueue).2 =
      exQueue.drop ((exQueue.takeWhile fun m => !(m.kind == END_MSG.kind)).length + 1) :=
  ⟨by decide, c4_iterate_until_end exQueue (by decide)⟩

/-- Claim C5: `Q.stop(workers)` / `endq_and_wait` enqueues exactly `N`
sentinels — one per worker, a single worker handle counting as `N = 1` — all
of them before any join, then joins every worker (its return means every
join event has occurred, in worker order). -/
theorem c5_stop_protocol (q : List Msg) (workers : SomeWorkers) :
    (endq_and_wait q workers).1 =
      q ++ List.replicate (normWorkers workers).length END_MSG ∧
    (endq_and_wait q workers).2.1 =
      List.replicate (normWorkers workers).length LifeEvent.sendEnd ++
        (normWorkers workers).map LifeEvent.joinWorker ∧
    (endq_and_wait q workers).2.2 = normWorkers workers ∧
    (∀ w ∈ normWorkers workers, LifeEvent.joinWorker w ∈ (endq_and_wait q workers).2.1) ∧
    (∀ w : Nat, (normWorkers (SomeWorkers.one w)).length = 1) := by
  refine ⟨sendEnds_eq _ q, ?_, rfl, ?_, fun w => rfl⟩
  · rw [endq_and_wait]
    dsimp only
    rw [endLoop_eq, joinLoop_eq]
  · intro w hw
    rw [endq_and_wait]
    dsimp only
    rw [endLoop_eq, joinLoop_eq]
    exact List.mem_append_right _ (List.mem_map_of_mem _ hw)

/-- Claim C6 (gap tolerance): with input keys exactly `{0..989} ∪ {995..999}`
in any arrival order, the main loop ends at `prev = 989` having emitted the
keys `0..989` in order; the post-gap items are exactly the ones still pending
when the input ends, and the final drain emits them as `995, ..., 999`; the
full output is the loop output followed by that drain. -/
theorem c6_gap_tolerance {α : Type} [DecidableEq α] (items : List α) (key : α → Int)
    (hperm : List.Perm (items.map key) (rangeI 0 989 ++ rangeI 995 999)) :
    (sortiterLoop key ((0 : Int) - 1, ([] : List α)) items).1.1 = 989 ∧
    (sortiterLoop key ((0 : Int) - 1, ([] : List α)) items).2.map key = rangeI 0 989 ∧
    (sortiterLoop key ((0 : Int) - 1, ([] : List α)) items).1.2.reverse.map key =
      rangeI 995 999 ∧
    sortiter items 0 key =
      (sortiterLoop key ((0 : Int) - 1, ([] : List α)) items).2 ++
        (sortiterLoop key ((0 : Int) - 1, ([] : List α)) items).1.2.reverse := by
  rcases hloop : sortiterLoop key ((0 : Int) - 1, ([] : List α)) items with ⟨⟨p', w'⟩, out⟩
  have hKnodup : (rangeI 0 989 ++ rangeI 995 999).Nodup := by
    rw [List.nodup_append]
    refine ⟨rangeI_nodup _ _, rangeI_nodup _ _, ?_⟩
    intro k hk1 hk2
    have h1 := mem_rangeI.mp hk1
    have h2 := mem_rangeI.mp hk2
    omega
  have hnodup : (items.map key).Nodup := hperm.nodup_iff.mpr hKnodup
  have hge : ∀ x ∈ items, (0 : Int) - 1 < key x := by
    intro x hx
    have h1 : key x ∈ rangeI 0 989 ++ rangeI 995 999 :=
      hperm.mem_iff.mp (List.mem_map_of_mem key hx)
    rcases List.mem_append.mp h1 with h2 | h2
    · have := mem_rangeI.mp h2
      omega
    · have := mem_rangeI.mp h2
      omega
  have hspec := sortiterLoop_spec key items ((0 : Int) - 1) [] p' w' out hloop
    List.Pairwise.nil (by simp) (by simp) hge (by simpa using hnodup)
  obtain ⟨hout, hle, hwsorted, hwgt, hwne⟩ := hspec
  have h01 : (0 : Int) - 1 + 1 = 0 := by ring
  rw [h01] at hout
  have hloopperm := sortiterLoop_perm key items ((0 : Int) - 1, [])
  rw [hloop] at hloopperm
  dsimp only at hloopperm
  have hkeysperm : List.Perm (out.map key ++ w'.map key)
      (rangeI 0 989 ++ rangeI 995 999) := by
    have h1 := hloopperm.map key
    rw [List.map_append] at h1
    simp only [List.nil_append] at h1
    exact h1.trans hperm
  have hp' : p' = 989 := by
    rcases lt_trichotomy p' 989 with hlt | heq | hgt
    · exfalso
      have hp0 : (0 : Int) - 1 ≤ p' := hle
      have hmem : p' + 1 ∈ rangeI 0 989 ++ rangeI 995 999 :=
        List.mem_append_left _ (mem_rangeI.mpr ⟨by omega, by omega⟩)
      have hmem2 : p' + 1 ∈ out.map key ++ w'.map key := hkeysperm.mem_iff.mpr hmem
      rcases List.mem_append.mp hmem2 with h2 | h2
      · rw [hout] at h2
        have := mem_rangeI.mp h2
        omega
      · rcases List.mem_map.mp h2 with ⟨x, hx, hxk⟩
        exact hwne x hx hxk
    · exact heq
    · exfalso
      have hmem : (990 : Int) ∈ out.map key := by
        rw [hout]
        exact mem_rangeI.mpr ⟨by omega, by omega⟩
      have hmem2 : (990 : Int) ∈ rangeI 0 989 ++ rangeI 995 999 :=
        hkeysperm.mem_iff.mp (List.mem_append_left _ hmem)
      rcases List.mem_append.mp hmem2 with h2 | h2
      · have := mem_rangeI.mp h2
        omega
      · have := mem_rangeI.mp h2
        omega
  subst hp'
  have hwperm : List.Perm (w'.map key) (rangeI 995 999) := by
    refine (List.perm_append_left_iff (rangeI 0 989)).mp ?_
    have h1 : List.Perm (List.map key out ++ List.map key w')
        (rangeI 0 989 ++ rangeI 995 999) := hkeysperm
    rwa [hout] at h1
  have hwrev : w'.reverse.map key = rangeI 995 999 := by
    refine int_eq_of_perm_of_pairwise_lt ?_ ?_ (rangeI_pairwise _ _)
    · rw [List.map_reverse]
      exact (List.reverse_perm _).trans hwperm
    · rw [List.pairwise_map]
      exact List.pairwise_reverse.mpr hwsorted
  dsimp only
  refine ⟨rfl, hout, hwrev, ?_⟩
  simp only [sortiter, hloop]

/-- Witness for C6: the gap input arriving worst-case (keys `995..999` first,
then `0..989`) still produces keys `0..989` from the loop and `995..999` from
the drain. -/
theorem c6_witness :
    (sortiterLoop Msg.order ((0 : Int) - 1, ([] : List Msg)) gapItems).1.1 = 989 ∧
    (sortiterLoop Msg.order ((0 : Int) - 1, ([] : List Msg)) gapItems).2.map Msg.order =
      rangeI 0 989 ∧
    (sortiterLoop Msg.order ((0 : Int) - 1, ([] : List Msg)) gapItems).1.2.reverse.map
      Msg.order = rangeI 995 999 ∧
    sortiter gapItems 0 Msg.order =
      (sortiterLoop Msg.order ((0 : Int) - 1, ([] : List Msg)) gapItems).2 ++
        (sortiterLoop Msg.order ((0 : Int) - 1, ([] : List Msg)) gapItems).1.2.reverse := by
  refine c6_gap_tolerance gapItems Msg.order ?_
  have h1 : gapItems.map Msg.order = rangeI 995 999 ++ rangeI 0 989 := by
    rw [gapItems, List.map_map]
    have h2 : (Msg.order ∘ fun k => (⟨"", PyData.none, k⟩ : Msg)) = id := rfl
    rw [h2, List.map_id]
  rw [h1]
  exact List.perm_append_comm

/-- Claim C7 (fast path): an arriving item is emitted immediately, without
entering `waiting`, exactly when `waiting` is empty and its key equals
`prev + 1` (otherwise the step inserts it into `waiting` before popping);
consequently, on an input whose keys are already `start, start+1, ...`, the
output equals the input and `waiting` is empty after every step. -/
theorem c7_fast_path {α : Type} [DecidableEq α] (key : α → Int) (items : List α)
    (start : Int)
    (hconsec : ∀ (i : Nat) (h : i < items.length), key items[i] = start + (i : Int)) :
    (∀ (prev : Int) (waiting : List α) (item : α),
        ((waiting = [] ∧ key item = prev + 1) →
          sortiterStep key prev waiting item = ((prev + 1, waiting), [item])) ∧
        (¬(waiting = [] ∧ key item = prev + 1) →
          sortiterStep key prev waiting item =
            (((popReady key prev (sortDesc key (waiting ++ [item]))).1,
              (popReady key prev (sortDesc key (waiting ++ [item]))).2.1),
              (popReady key prev (sortDesc key (waiting ++ [item]))).2.2))) ∧
    (∀ n : Nat, (sortiterLoop key (start - 1, []) (items.take n)).1.2 = []) ∧
    sortiter items start key = items := by
  refine ⟨?_, ?_, ?_⟩
  · intro prev waiting item
    constructor
    · intro hc
      rw [sortiterStep, if_pos hc]
    · intro hc
      rw [sortiterStep, if_neg hc]
  · intro n
    have hc : ∀ (i : Nat) (h : i < (items.take n).length),
        key (items.take n)[i] = start + (i : Int) := by
      intro i hi
      have hlen : i < items.length := by
        have := hi
        rw [List.length_take] at this
        omega
      have hgi : (items.take n)[i] = items[i] := List.getElem_take items
      rw [hgi]
      exact hconsec i hlen
    rw [sortiterLoop_consec key (items.take n) start hc]
  · have h := sortiterLoop_consec key items start hconsec
    simp only [sortiter, h]
    simp

/-- Witness for C7: the consecutive-key input `exConsec` (keys `5, 6, 7`,
`start = 5`) is emitted unchanged with `waiting` empty after every step. -/
theorem c7_witness :
    (∀ (i : Nat) (h : i < exConsec.length), Msg.order exConsec[i] = 5 + (i : Int)) ∧
    (∀ n : Nat, (sortiterLoop Msg.order ((5 : Int) - 1, []) (exConsec.take n)).1.2 = []) ∧
    sortiter exConsec 5 Msg.order = exConsec :=
  ⟨by decide, (c7_fast_path Msg.order exConsec 5 (by decide)).2.1,
    (c7_fast_path Msg.order exConsec 5 (by decide)).2.2⟩

/-- Counterexample to C8: with the duplicate keys `[0, 0]` (start `0`), after
both items are processed the state is `prev = 0` with the second item pending,
whose key `0` is below `expected = prev + 1 = 1`: the claimed invariant
"every pending item has key ≥ expected" fails on this input. -/
theorem c8_counterexample :
    (sortiterLoop Msg.order ((0 : Int) - 1, ([] : List Msg)) exDupZero).1.1 = 0 ∧
    (sortiterLoop Msg.order ((0 : Int) - 1, ([] : List Msg)) exDupZero).1.2 =
      [⟨"", PyData.str "b", 0⟩] ∧
    ¬(∀ x ∈ (sortiterLoop Msg.order ((0 : Int) - 1, ([] : List Msg)) exDupZero).1.2,
        (sortiterLoop Msg.order ((0 : Int) - 1, ([] : List Msg)) exDupZero).1.1 + 1 ≤
          Msg.order x) := by
  decide

/-- Claim C8 as amended: provided the input keys are pairwise distinct and all
at least `start`, then after each processed item every emitted item has key
below `expected = prev + 1` and every pending item has key at least
`expected`.  (With duplicate — or below-`start` — keys, an item whose key is
below `expected` can sit in `waiting`, as `c8_counterexample` shows.) -/
theorem c8_amended_invariant {α : Type} [DecidableEq α] (key : α → Int)
    (items : List α) (start : Int) (n : Nat)
    (hnodup : (items.map key).Nodup) (hge : ∀ x ∈ items, start ≤ key x) :
    (∀ y ∈ (sortiterLoop key (start - 1, []) (items.take n)).2,
        key y < (sortiterLoop key (start - 1, []) (items.take n)).1.1 + 1) ∧
    (∀ x ∈ (sortiterLoop key (start - 1, []) (items.take n)).1.2,
        (sortiterLoop key (start - 1, []) (items.take n)).1.1 + 1 ≤ key x) := by
  rcases hloop : sortiterLoop key (start - 1, []) (items.take n) with ⟨⟨p', w'⟩, out⟩
  have hnodup' : ((items.take n).map key).Nodup :=
    List.Nodup.sublist ((items.take_sublist n).map key) hnodup
  have hge' : ∀ x ∈ items.take n, start - 1 < key x := by
    intro x hx
    have := hge x (List.take_subset n items hx)
    omega
  have hspec := sortiterLoop_spec key (items.take n) (start - 1) [] p' w' out hloop
    List.Pairwise.nil (by simp) (by simp) hge' (by simpa using hnodup')
  obtain ⟨hout, _, _, hwgt, _⟩ := hspec
  dsimp only
  constructor
  · intro y hy
    have h1 : key y ∈ rangeI (start - 1 + 1) p' := by
      rw [← hout]
      exact List.mem_map_of_mem key hy
    have := (mem_rangeI.mp h1).2
    omega
  · intro x hx
    have := hwgt x hx
    omega

/-- Witness for C8 (amended): the shuffle `exShuffle` after two steps has all
emitted keys below `expected` and all pending keys at or above it. -/
theorem c8_witness :
    (exShuffle.map Msg.order).Nodup ∧
    (∀ y ∈ (sortiterLoop Msg.order ((0 : Int) - 1, []) (exShuffle.take 2)).2,
        Msg.order y < (sortiterLoop Msg.order ((0 : Int) - 1, []) (exShuffle.take 2)).1.1 + 1) ∧
    (∀ x ∈ (sortiterLoop Msg.order ((0 : Int) - 1, []) (exShuffle.take 2)).1.2,
        (sortiterLoop Msg.order ((0 : Int) - 1, []) (exShuffle.take 2)).1.1 + 1 ≤
          Msg.order x) :=
  ⟨by decide, (c8_amended_invariant Msg.order exShuffle 0 2 (by decide) (by decide)).1,
    (c8_amended_invariant Msg.order exShuffle 0 2 (by decide) (by decide)).2⟩

/-- Counterexample to C9: on input `a (key 1), b (key 1), c (key 0)` both
duplicates are emitted, but `b` — which arrived after `a` — comes out first:
equal-key items buffered together are emitted in reverse arrival order, not
arrival order. -/
theorem c9_counterexample :
    exDupOne =
      [⟨"", PyData.str "a", 1⟩, ⟨"", PyData.str "b", 1⟩, ⟨"", PyData.str "c", 0⟩] ∧
    sortiter exDupOne 0 Msg.order =
      [⟨"", PyData.str "c", 0⟩, ⟨"", PyData.str "b", 1⟩, ⟨"", PyData.str "a", 1⟩] ∧
    sortiter exDupOne 0 Msg.order ≠
      [⟨"", PyData.str "c", 0⟩, ⟨"", PyData.str "a", 1⟩, ⟨"", PyData.str "b", 1⟩] := by
  refine ⟨rfl, by decide, by decide⟩

/-- Claim C9 as amended: for every input containing duplicate keys, `sortiter`
still emits all the items, each exactly once (the output is a permutation of
the input); items sharing an equal key, however, are not guaranteed to appear
in arrival order. -/
theorem c9_amended_duplicates {α : Type} [DecidableEq α] (items : List α)
    (start : Int) (key : α → Int) (_hdup : ¬(items.map key).Nodup) :
    List.Perm (sortiter items start key) items :=
  sortiter_perm items start key

/-- Witness for C9 (amended): the duplicate-key input `exDupOne` is emitted as
a permutation of itself. -/
theorem c9_witness :
    ¬(exDupOne.map Msg.order).Nodup ∧
    List.Perm (sortiter exDupOne 0 Msg.order) exDupOne :=
  ⟨by decide, c9_amended_duplicates exDupOne 0 Msg.order (by decide)⟩

/-- Claim C10: `Q.put(data, kind, order)` enqueues `data` unchanged — ignoring
the `kind` and `order` arguments — when `data` is already a `Msg`, and
otherwise enqueues `Msg(data=data, kind=kind, order=order)`; either way the
result is the updated queue (the `self` that `put` returns for chaining). -/
theorem c10_put_no_double_wrap (q : List Msg) (data : PyData) (kind : String)
    (order : Int) :
    (∀ k d o, data = PyData.msg k d o →
      Qput q data kind order = q ++ [⟨k, d, o⟩] ∧
        ∀ kind2 order2, Qput q data kind2 order2 = Qput q data kind order) ∧
    ((∀ k d o, data ≠ PyData.msg k d o) →
      Qput q data kind order = q ++ [⟨kind, data, order⟩]) := by
  constructor
  · intro k d o hdata
    subst hdata
    exact ⟨rfl, fun kind2 order2 => rfl⟩
  · intro hdata
    cases data with
    | none => rfl
    | int n => rfl
    | str s => rfl
    | msg k d o => exact absurd rfl (hdata k d o)

/-- Witness for C10: a `Msg`-valued `data` is enqueued unchanged (the `kind`
and `order` arguments are ignored), a plain value is wrapped. -/
theorem c10_witness :
    Qput [] (PyData.msg "k" (PyData.int 7) 3) "ignored" 9 =
      [⟨"k", PyData.int 7, 3⟩] ∧
    Qput [] (PyData.int 5) "tag" 2 = [⟨"tag", PyData.int 5, 2⟩] :=
  ⟨((c10_put_no_double_wrap [] (PyData.msg "k" (PyData.int 7) 3) "ignored" 9).1
      "k" (PyData.int 7) 3 rfl).1,
    (c10_put_no_double_wrap [] (PyData.int 5) "tag" 2).2
      fun _ _ _ h => PyData.noConfusion h⟩

end Claims

end Ezq
